import Mathlib

/-!
Verification development for the pyhmmer profile-HMM search pipeline and its
iterative-refinement driver.  The repository snapshot ships only the Cython
declaration files, the documentation and an example notebook for the core
subsystem, so the pipeline, significance evaluator, domain postprocessor and
iterative search driver are modelled here from the specification document.
Scores are represented in probability space by exact rationals: a log-odds
score `s` is represented by its exponential `exp s` (a mass in `ℚ`), so
log-space addition of scores becomes multiplication of masses, the
log-sum-exp accumulation required by the Forward stage becomes exact
addition, the score order coincides with the mass order, and the minimal
score (log-space negative infinity) is the mass zero.
-/

/-- Modelled from the spec: a digitized target sequence record, as produced by
the external sequence source (identifier plus digitized symbol array). -/
structure DSeq where
  ident : Nat
  residues : List Nat
deriving DecidableEq, Repr

/-- Modelled from the spec: the minimal score.  In mass (probability) space the
minimal log-odds score corresponds to probability mass zero. -/
def minScore : ℚ := 0

/-- Modelled from the spec: length-dependent special-state transition scores
(entry/exit probabilities modelling unaligned flanking residue runs) for the
N, C and J special states. -/
structure LengthScores where
  nLoop : ℚ
  nMove : ℚ
  cLoop : ℚ
  cMove : ℚ
  jLoop : ℚ
  jMove : ℚ
deriving DecidableEq, Repr

/-- Modelled from the spec: recomputation of the length-dependent special
state transition scores for a target of length `L`; the loop mass is
`L / (L + 3)` and the move mass `3 / (L + 3)`, modelling the expected
unaligned flanking residue runs. -/
def lengthConfig (L : Nat) : LengthScores :=
  ⟨(L : ℚ) / ((L : ℚ) + 3), 3 / ((L : ℚ) + 3),
   (L : ℚ) / ((L : ℚ) + 3), 3 / ((L : ℚ) + 3),
   (L : ℚ) / ((L : ℚ) + 3), 3 / ((L : ℚ) + 3)⟩

/-- Modelled from the spec: the scored representation of a pHMM.  It owns the
match-state count `M`, per-state per-symbol emission tables, core transition
masses, a background (null model) odds vector, and the length-dependent
special-state transition scores together with the currently configured target
length.  All score tables are masses (exponentials of log-odds scores). -/
structure Profile where
  M : Nat
  matchEmissions : List (List ℚ)
  insertEmissions : List (List ℚ)
  tMM : ℚ
  tII : ℚ
  background : List ℚ
  special : LengthScores
  confLength : Nat
deriving DecidableEq, Repr

/-- Modelled from the spec: the configure operation, performed once per
distinct target length class.  It recomputes the length-dependent
special-state transition scores for the new target length and leaves every
emission table and core transition untouched. -/
def configure (p : Profile) (L : Nat) : Profile :=
  { p with special := lengthConfig L, confLength := L }

/-- Modelled from the spec: match emission mass of model position `k` for
digitized symbol `x`; out-of-range lookups yield the minimal mass. -/
def emitMass (p : Profile) (k : Nat) (x : Nat) : ℚ :=
  (p.matchEmissions.getD k []).getD x 0

/-- Best (maximal-mass) nonempty contiguous run inside a list of per-position
masses, computed in one linear pass with constant extra space; the empty list
has no run and yields the minimal score. -/
def runBest (l : List ℚ) : ℚ :=
  (l.foldl (fun acc e => let ending := e * max acc.2 1; (max acc.1 ending, ending))
    ((minScore, 0) : ℚ × ℚ)).1

/-- Per-position emission masses along the diagonal that starts at model
position `k0` and target position `i0`. -/
def diagFrom (p : Profile) (xs : List Nat) (k0 : Nat) (i0 : Nat) : List ℚ :=
  List.zipWith (fun k x => emitMass p k x) (List.range' k0 (p.M - k0)) (xs.drop i0)

/-- Modelled from the spec: Stage A of the filter cascade, the ungapped
heuristic — the best-scoring local ungapped diagonal run of the target
against the profile.  No gaps are modelled.  An empty target has no diagonal
run and yields the defined minimal score. -/
def ssvScore (p : Profile) (xs : List Nat) : ℚ :=
  let ds := (List.range xs.length).map (fun i0 => runBest (diagFrom p xs 0 i0))
         ++ (List.range p.M).map (fun k0 => runBest (diagFrom p xs k0 0))
  ds.foldl max minScore

/-- One column update of the simplified gapped Viterbi-like recurrence used by
Stage B: each model position may be entered locally, extended diagonally from
the previous position, or extended by an insertion that stays at the same
model position. -/
def vitStep (p : Profile) (v : List ℚ) (x : Nat) : List ℚ :=
  (List.range p.M).map fun k =>
    emitMass p k x *
      max (max p.special.nMove ((if k = 0 then 0 else v.getD (k - 1) 0) * p.tMM))
          (v.getD k 0 * p.tII)

/-- Best gapped local alignment mass reached anywhere during the simplified
Viterbi-like recurrence of Stage B. -/
def gappedBest (p : Profile) (xs : List Nat) : ℚ :=
  (xs.foldl (fun acc x =>
      let w := vitStep p acc.2 x
      (w.foldl max acc.1, w))
    ((minScore, List.replicate p.M 0) : ℚ × List ℚ)).1

/-- Modelled from the spec: the null-bias correction of Stage B — the
composition bias mass accumulated from the background odds of the target
residues.  Subtracting the bias in log space is dividing by it in mass
space. -/
def biasMass (p : Profile) (xs : List Nat) : ℚ :=
  xs.foldl (fun b x => b * max 1 (p.background.getD x 1)) 1

/-- Modelled from the spec: Stage B of the filter cascade, the
bias-corrected gapped Viterbi-like heuristic score. -/
def vitScore (p : Profile) (xs : List Nat) : ℚ :=
  gappedBest p xs / biasMass p xs

/-- One column update of the Forward recurrence: sum over local entry,
diagonal extension and insertion extension, weighted by emission mass.  In
mass space the log-sum-exp accumulation is exact rational addition. -/
def fwdStep (p : Profile) (v : List ℚ) (x : Nat) : List ℚ :=
  (List.range p.M).map fun k =>
    emitMass p k x *
      (p.special.nMove + (if k = 0 then 0 else v.getD (k - 1) 0) * p.tMM +
        (v.getD k 0) * p.tII)

/-- Modelled from the spec: Stage C of the filter cascade and the Alignment
Engine score — the full probabilistic sum-over-alignments (Forward) mass of
the target against the profile; over exact rationals the restricted-precision
filter and the full-precision engine coincide. -/
def fwdScore (p : Profile) (xs : List Nat) : ℚ :=
  (xs.foldl (fun acc x =>
      let w := fwdStep p acc.2 x
      (acc.1 + w.foldl (· + ·) 0, w))
    ((0, List.replicate p.M 0) : ℚ × List ℚ)).1

/-- Modelled from the spec: one non-overlapping aligned region within a Hit,
with envelope coordinates on query and target, alignment score, bias and
posterior-accuracy score. -/
structure Dom where
  qfrom : Nat
  qto : Nat
  tfrom : Nat
  tto : Nat
  dscore : ℚ
  dbias : ℚ
  dacc : ℚ
deriving DecidableEq, Repr

/-- Modelled from the spec: merging of two candidate domains whose envelopes
overlap — the merged domain covers the union of the two envelopes and keeps
the higher-scoring alignment, ties broken by the earlier target start
coordinate (the first argument, since candidates are processed in ascending
target start order). -/
def mergeTwo (a b : Dom) : Dom :=
  let rep := if a.dscore < b.dscore then b else a
  { qfrom := min a.qfrom b.qfrom, qto := max a.qto b.qto,
    tfrom := min a.tfrom b.tfrom, tto := max a.tto b.tto,
    dscore := rep.dscore, dbias := rep.dbias, dacc := rep.dacc }

/-- Merge pass over candidate domains already sorted by target start
coordinate: a candidate whose envelope overlaps the current envelope is merged
into it, otherwise the current envelope is emitted and the candidate becomes
current. -/
def mergeLoop : Dom → List Dom → List Dom
  | cur, [] => [cur]
  | cur, d :: rest =>
    if d.tfrom ≤ cur.tto then mergeLoop (mergeTwo cur d) rest
    else cur :: mergeLoop d rest

/-- Ordering of candidate domains by ascending target start coordinate. -/
def domLE (a b : Dom) : Prop := a.tfrom ≤ b.tfrom

instance : DecidableRel domLE := fun a b => inferInstanceAs (Decidable (a.tfrom ≤ b.tfrom))

instance : IsTotal Dom domLE := ⟨fun a b => Nat.le_total a.tfrom b.tfrom⟩

instance : IsTrans Dom domLE := ⟨fun _ _ _ h h2 => Nat.le_trans h h2⟩

/-- Modelled from the spec: the Domain Postprocessor merge step.  Candidates
are sorted by target start coordinate and every pair of overlapping envelopes
is merged (the configured overlap fraction is taken at its default of zero,
which is what the §3 invariant — domains do not overlap after the merge
step — requires), keeping the higher-scoring alignment with ties broken by
the earlier target start. -/
def postprocessDomains (cands : List Dom) : List Dom :=
  match List.insertionSort domLE cands with
  | [] => []
  | d :: rest => mergeLoop d rest

/-- Modelled from the spec: identification of contiguous high-posterior
regions separated by low-posterior gaps — maximal runs of positions whose
posterior mass reaches the probability-mass threshold, reported as closed
target coordinate intervals. -/
def runsAux (pred : Nat → Bool) : Nat → Option Nat → List Nat → List (Nat × Nat)
  | i, cur, [] => match cur with | some s => [(s, i - 1)] | none => []
  | i, cur, x :: xs =>
    if pred x then
      match cur with
      | some s => runsAux pred (i + 1) (some s) xs
      | none => runsAux pred (i + 1) (some i) xs
    else
      match cur with
      | some s => (s, i - 1) :: runsAux pred (i + 1) none xs
      | none => runsAux pred (i + 1) none xs

/-- Posterior mass proxy of one target position: the best match emission mass
over all model positions. -/
def posMass (p : Profile) (x : Nat) : ℚ :=
  (List.range p.M).foldl (fun b k => max b (emitMass p k x)) 0

/-- Modelled from the spec: candidate domains of one target — high-posterior
runs, each rescored by a focused Forward pass restricted to its envelope. -/
def candidateDomains (p : Profile) (xs : List Nat) : List Dom :=
  (runsAux (fun x => decide (1 ≤ posMass p x)) 0 none xs).map fun se =>
    { qfrom := 0, qto := p.M, tfrom := se.1, tto := se.2,
      dscore := fwdScore p ((xs.drop se.1).take (se.2 + 1 - se.1)),
      dbias := biasMass p ((xs.drop se.1).take (se.2 + 1 - se.1)),
      dacc := 1 }

/-- Modelled from the spec: one target's result against the query, with the
stage scores it passed, the full-sequence score from the Alignment Engine,
its domain list, and the included/reported/dropped/new flags. -/
structure Hit where
  ident : Nat
  index : Nat
  scoreA : ℚ
  scoreB : ℚ
  scoreC : ℚ
  score : ℚ
  domains : List Dom
  included : Bool
  reported : Bool
  dropped : Bool
  isNew : Bool
deriving DecidableEq, Repr

/-- Outcome of one target inside the Scanning state: rejected by one of the
three cascade stages, or passed through to a Hit. -/
inductive TargetOutcome where
  | failedA
  | failedB
  | failedC
  | hit (h : Hit)
deriving DecidableEq, Repr

/-- Modelled from the spec: the per-stage P-value-derived score thresholds of
the filter cascade together with the inclusion and reporting thresholds of
the Significance Evaluator, all in mass space. -/
structure PipelineParams where
  thrA : ℚ
  thrB : ℚ
  thrC : ℚ
  incT : ℚ
  repT : ℚ
deriving DecidableEq, Repr

/-- Modelled from the spec: the per-target sequence of the Scanning state —
the profile is configured for the target's length, then the three cascade
stages run cheap to expensive with immediate short-circuit discard on the
first failed stage, and only a survivor of all three stages reaches the
Alignment Engine and the Domain Postprocessor and becomes a Hit. -/
def processTarget (p : Profile) (ps : PipelineParams) (i : Nat) (t : DSeq) : TargetOutcome :=
  let pc := configure p t.residues.length
  let sA := ssvScore pc t.residues
  if sA < ps.thrA then .failedA
  else
    let sB := vitScore pc t.residues
    if sB < ps.thrB then .failedB
    else
      let sC := fwdScore pc t.residues
      if sC < ps.thrC then .failedC
      else
        .hit { ident := t.ident, index := i, scoreA := sA, scoreB := sB, scoreC := sC,
               score := sC,
               domains := postprocessDomains (candidateDomains pc t.residues),
               included := false, reported := false, dropped := false, isNew := false }

/-- Modelled from the spec: the per-stage pass/fail accounting the Pipeline
keeps for diagnostics. -/
structure StageCounters where
  failA : Nat
  failB : Nat
  failC : Nat
  passed : Nat
deriving DecidableEq, Repr

/-- Modelled from the spec: the Scanning state of the Pipeline — the
per-target loop over the database, producing the accumulated hit list in
target insertion order together with the per-stage fail counters. -/
def scanAux (p : Profile) (ps : PipelineParams) : Nat → List DSeq → List Hit × StageCounters
  | _, [] => ([], ⟨0, 0, 0, 0⟩)
  | i, t :: ts =>
    let rest := scanAux p ps (i + 1) ts
    match processTarget p ps i t with
    | .failedA => (rest.1, { rest.2 with failA := rest.2.failA + 1 })
    | .failedB => (rest.1, { rest.2 with failB := rest.2.failB + 1 })
    | .failedC => (rest.1, { rest.2 with failC := rest.2.failC + 1 })
    | .hit h => (h :: rest.1, { rest.2 with passed := rest.2.passed + 1 })

/-- Hits accumulated by the Scanning state, in target insertion order. -/
def scanHits (p : Profile) (ps : PipelineParams) (i : Nat) (ts : List DSeq) : List Hit :=
  (scanAux p ps i ts).1

/-- Per-stage fail counters accumulated by the Scanning state. -/
def scanCounters (p : Profile) (ps : PipelineParams) (ts : List DSeq) : StageCounters :=
  (scanAux p ps 0 ts).2

/-- Modelled from the spec: the Significance Evaluator threshold application —
a Hit is marked included iff its full-sequence score passes the configured
inclusion threshold and reported iff it passes the separate, generally
looser, reporting threshold. -/
def applyThresholds (ps : PipelineParams) (h : Hit) : Hit :=
  { h with included := decide (ps.incT ≤ h.score),
           reported := decide (ps.repT ≤ h.score) }

/-- Modelled from the spec: the sort key of the Top-Hits Collection —
descending full-sequence score, ties broken by ascending target
insertion/index order, never by identity. -/
def hitKey (h : Hit) : Lex (ℚ × Nat) := toLex (-h.score, h.index)

/-- Comparison of two Hits by their sort key. -/
def hitLE (a b : Hit) : Prop := hitKey a ≤ hitKey b

instance : DecidableRel hitLE := fun a b => inferInstanceAs (Decidable (hitKey a ≤ hitKey b))

instance : IsTotal Hit hitLE := ⟨fun a b => le_total (hitKey a) (hitKey b)⟩

instance : IsTrans Hit hitLE := ⟨fun _ _ _ h h2 => le_trans h h2⟩

/-- Modelled from the spec: the collection-wide sort performed by the
Finalizing state, after all targets complete. -/
def sortHits (l : List Hit) : List Hit := List.insertionSort hitLE l

/-- Finalized hit list: thresholds applied to every accumulated hit, then the
deterministic collection-wide sort. -/
def finalizeHits (ps : PipelineParams) (l : List Hit) : List Hit :=
  sortHits (l.map (applyThresholds ps))

/-- Incremental counter of included hits, incremented once per hit carrying
the included flag while the Finalizing state walks the sorted collection. -/
def countIncludedAux : List Hit → Nat → Nat
  | [], n => n
  | h :: t, n => countIncludedAux t (if h.included then n + 1 else n)

/-- Incremental counter of reported hits. -/
def countReportedAux : List Hit → Nat → Nat
  | [], n => n
  | h :: t, n => countReportedAux t (if h.reported then n + 1 else n)

/-- Modelled from the spec: the Top-Hits Collection — the ordered sequence of
Hits of one search, sorted by descending score with the index tie-break,
exposing the counts of included and reported hits and the per-stage
accounting. -/
structure TopHits where
  hits : List Hit
  hits_included : Nat
  hits_reported : Nat
  counters : StageCounters
deriving DecidableEq, Repr

/-- Modelled from the spec: the Finalizing state — collection-wide sort,
counts and threshold application over the hits accumulated by Scanning. -/
def finalize (ps : PipelineParams) (acc : List Hit × StageCounters) : TopHits :=
  let sorted := finalizeHits ps acc.1
  { hits := sorted,
    hits_included := countIncludedAux sorted 0,
    hits_reported := countReportedAux sorted 0,
    counters := acc.2 }

/-- Modelled from the spec: the error taxonomy visible to callers of the
Pipeline and of the Iterative Search Driver. -/
inductive PipelineError where
  | configurationError
  | invalidDistributionError
  | profileBuildError
  | numericOverflowError
deriving DecidableEq, Repr

/-- Modelled from the spec: one full Pipeline run over a database — a typed
failure if the bound profile is malformed (`M = 0`; non-finite table entries
cannot arise over exact rationals), otherwise the complete finalized Top-Hits
Collection.  Scanning is deterministic in target insertion order, so reruns
and any worker completion order finalize to the same collection. -/
def runPipeline (p : Profile) (ps : PipelineParams) (ts : List DSeq) :
    Except PipelineError TopHits :=
  if p.M = 0 then .error .profileBuildError
  else .ok (finalize ps (scanAux p ps 0 ts))

/-- Selected hits of a finalized collection: included and not dropped.  These
are the hits the Iterative Search Driver hands to the external Builder for
the next round and the hits entering the convergence accounting. -/
def includedSel (th : TopHits) : List Hit :=
  th.hits.filter fun h => h.included && !h.dropped

/-- Modelled from the spec: the order-independent set of target identities
marked included and not dropped, used by the naive convergence fixpoint
test. -/
def identSet (th : TopHits) : Finset Nat :=
  ((includedSel th).map Hit.ident).toFinset

/-- Modelled from the spec: the Profile-building input of the round following
the one that produced this collection — its included-and-not-dropped hits. -/
def builderInput (th : TopHits) : List Hit := includedSel th

/-- Modelled from the spec: the selection-policy mutation window — the
user-pluggable policy may side-effect only the dropped flag of each Hit of
the collection. -/
def applySelection (policy : Hit → Bool) (th : TopHits) : TopHits :=
  { th with hits := th.hits.map fun h => { h with dropped := policy h } }

/-- Modelled from the spec: the snapshot handed to the caller after each
round of the Iterative Search Driver. -/
structure IterationResult where
  iteration : Nat
  profile : Profile
  hits : TopHits
  converged : Bool
deriving DecidableEq, Repr

/-- Modelled from the spec: the failures surfaced by the Iterative Search
Driver — an external Builder failure, the iteration-cap hardening, or a
Pipeline failure inside a round. -/
inductive DriverError where
  | builderError
  | nonConvergenceError
  | pipelineError (e : PipelineError)
deriving DecidableEq, Repr

/-- Modelled from the spec: the caller-visible outcome of an iterative
search — either a sequence of Iteration Results ending in a converged round,
or a typed failure at the round where it occurred together with all prior
rounds' results. -/
inductive DriverOutcome where
  | success (results : List IterationResult)
  | failure (err : DriverError) (prior : List IterationResult)
deriving DecidableEq, Repr

/-- Results visible to the caller in either outcome. -/
def DriverOutcome.results : DriverOutcome → List IterationResult
  | .success rs => rs
  | .failure _ rs => rs

/-- Modelled from the spec: the static inputs of an iterative search — the
round-0 build of the Profile from the raw query, the rebuild of the Profile
from the selected hits of the previous round, the hit-selection policy, the
pipeline parameters, the target database and the iteration safety cap. -/
structure DriverConfig where
  buildFromQuery : Except DriverError Profile
  buildFromHits : List Hit → Except DriverError Profile
  policy : Hit → Bool
  params : PipelineParams
  targets : List DSeq
  maxIter : Nat

/-- Modelled from the spec: one round of the Iterative Search Driver — run
the Pipeline over the full database with the round's Profile, open the
selection-policy mutation window, then compute convergence: converged iff
the set of target identities marked included and not dropped equals that set
of the previous round (order-independent set equality); the first round,
which has no previous set, is never converged. -/
def runRound (cfg : DriverConfig) (prof : Profile) (n : Nat) (prevSet : Option (Finset Nat)) :
    Except PipelineError IterationResult :=
  match runPipeline prof cfg.params cfg.targets with
  | .error e => .error e
  | .ok th0 =>
    let th := applySelection cfg.policy th0
    let conv := match prevSet with
      | none => false
      | some s => decide (identSet th = s)
    .ok { iteration := n, profile := prof, hits := th, converged := conv }

/-- Modelled from the spec: the driver loop — rounds run until the first
converged round (success), a typed failure inside a round or in the external
Builder (failure with the prior rounds), or exhaustion of the iteration
safety cap (failure with the prior rounds). -/
def driverLoop (cfg : DriverConfig) :
    Nat → Profile → Nat → Option (Finset Nat) → List IterationResult → DriverOutcome
  | 0, _, _, _, acc => .failure .nonConvergenceError acc.reverse
  | fuel + 1, prof, n, prevSet, acc =>
    match runRound cfg prof n prevSet with
    | .error e => .failure (.pipelineError e) acc.reverse
    | .ok res =>
      if res.converged then .success (res :: acc).reverse
      else
        match cfg.buildFromHits (builderInput res.hits) with
        | .error e => .failure e (res :: acc).reverse
        | .ok prof2 => driverLoop cfg fuel prof2 (n + 1) (some (identSet res.hits)) (res :: acc)

/-- Modelled from the spec: a full iterative search — build the initial
Profile from the raw query, then iterate rounds under the safety cap. -/
def runDriver (cfg : DriverConfig) : DriverOutcome :=
  match cfg.buildFromQuery with
  | .error e => .failure e []
  | .ok prof0 => driverLoop cfg cfg.maxIter prof0 0 none []

/-- Modelled from the spec: the calibrated statistical tail parameters of a
profile for one score type — location `mu`, scale `lam` and the effective
database size `Z`. -/
structure TailParams where
  Z : ℝ
  lam : ℝ
  mu : ℝ

/-- Modelled from the spec: the E-value formula of the Significance
Evaluator, `E = Z * exp (-lam * (bits - mu))`. -/
noncomputable def evalue (Z lam mu bits : ℝ) : ℝ :=
  Z * Real.exp (-(lam * (bits - mu)))

/-- Modelled from the spec: the bit score of a Hit — the log base two of its
full-sequence score mass, `bits = raw / ln 2`. -/
noncomputable def hitBits (h : Hit) : ℝ :=
  Real.log ((h.score : ℝ)) / Real.log 2

/-- E-value of a Hit under the calibrated tail parameters of its
collection. -/
noncomputable def hitEvalue (tp : TailParams) (h : Hit) : ℝ :=
  evalue tp.Z tp.lam tp.mu (hitBits h)

/-- Concrete one-state profile used to instantiate the theorems below. -/
def sampleProfile : Profile :=
  { M := 1, matchEmissions := [[2]], insertEmissions := [[1]], tMM := 1, tII := 1,
    background := [1], special := lengthConfig 1, confLength := 1 }

/-- Concrete pipeline parameters used to instantiate the theorems below. -/
def sampleParams : PipelineParams :=
  { thrA := 1, thrB := 0, thrC := 0, incT := 0, repT := 0 }

/-- Concrete strict parameters whose Stage A threshold rejects the sample
target. -/
def strictParams : PipelineParams :=
  { thrA := 3, thrB := 0, thrC := 0, incT := 0, repT := 0 }

/-- Concrete one-target database. -/
def sampleDB : List DSeq := [⟨7, [0]⟩]

/-- Concrete two-target database. -/
def sampleDB2 : List DSeq := [⟨7, [0]⟩, ⟨9, [0, 0]⟩]

/-- Concrete selection policy dropping every hit. -/
def dropAllPolicy : Hit → Bool := fun _ => true

/-- Concrete driver configuration with the drop-everything policy. -/
def sampleCfg : DriverConfig :=
  { buildFromQuery := .ok sampleProfile, buildFromHits := fun _ => .ok sampleProfile,
    policy := dropAllPolicy, params := sampleParams, targets := sampleDB, maxIter := 4 }

/-- Concrete driver configuration with the policy that never drops. -/
def sampleCfg2 : DriverConfig :=
  { buildFromQuery := .ok sampleProfile, buildFromHits := fun _ => .ok sampleProfile,
    policy := fun _ => false, params := sampleParams, targets := sampleDB2, maxIter := 4 }

/-- The Iteration Result produced by round zero of `sampleCfg`. -/
def sampleRes : IterationResult :=
  { iteration := 0, profile := sampleProfile,
    hits := applySelection dropAllPolicy
      (finalize sampleParams (scanAux sampleProfile sampleParams 0 sampleDB)),
    converged := false }

/-- The Hit produced by the pipeline for the single target of `sampleDB`
under `sampleProfile` and `sampleParams`. -/
def sampleHit : Hit :=
  { ident := 7, index := 0, scoreA := 2, scoreB := 3 / 2, scoreC := 3 / 2, score := 3 / 2,
    domains := [{ qfrom := 0, qto := 1, tfrom := 0, tto := 0, dscore := 3 / 2,
                  dbias := 1, dacc := 1 }],
    included := false, reported := false, dropped := false, isNew := false }

/-- Concrete calibrated tail parameters. -/
def tailW : TailParams := ⟨1, 1, 0⟩

/-- Concrete high-scoring hit. -/
def hitW1 : Hit :=
  { ident := 1, index := 0, scoreA := 2, scoreB := 2, scoreC := 2, score := 2,
    domains := [], included := true, reported := true, dropped := false, isNew := false }

/-- Concrete lower-scoring hit. -/
def hitW2 : Hit :=
  { ident := 2, index := 1, scoreA := 1, scoreB := 1, scoreC := 1, score := 1,
    domains := [], included := true, reported := true, dropped := false, isNew := false }

/-- Concrete Top-Hits Collection holding the two concrete hits. -/
def collW : TopHits :=
  { hits := [hitW1, hitW2], hits_included := 2, hits_reported := 2,
    counters := ⟨0, 0, 0, 2⟩ }

/-- Concrete candidate domain covering target positions 0 to 5. -/
def domW1 : Dom := ⟨0, 1, 0, 5, 2, 1, 1⟩

/-- Concrete candidate domain covering target positions 3 to 7, overlapping
the first. -/
def domW2 : Dom := ⟨0, 1, 3, 7, 1, 1, 1⟩

lemma countIncludedAux_eq (l : List Hit) (n : Nat) :
    countIncludedAux l n = n + (l.filter (fun h => h.included)).length := by
  induction l generalizing n with
  | nil => simp [countIncludedAux]
  | cons h t ih =>
    by_cases hc : h.included = true
    · simp [countIncludedAux, hc, ih, List.filter_cons, Nat.add_assoc, Nat.add_comm 1]
    · simp [countIncludedAux, hc, ih, List.filter_cons]

lemma filter_included_map_dropped (pol : Hit → Bool) (l : List Hit) :
    ((l.map fun h => { h with dropped := pol h }).filter (fun h => h.included)).length
      = (l.filter (fun h => h.included)).length := by
  induction l with
  | nil => rfl
  | cons h t ih =>
    by_cases hc : h.included = true
    · simp [List.filter_cons, hc, ih]
    · simp [List.filter_cons, hc, ih]

/-- C10: for every finalized Top-Hits Collection, including each iteration's
collection after the selection-policy mutation window, the exposed
`hits_included` count equals the number of Hit records in the collection
whose included flag is true. -/
theorem hits_included_count_correct (ps : PipelineParams) (acc : List Hit × StageCounters)
    (pol : Hit → Bool) :
    (finalize ps acc).hits_included
      = ((finalize ps acc).hits.filter (fun h => h.included)).length ∧
    (applySelection pol (finalize ps acc)).hits_included
      = ((applySelection pol (finalize ps acc)).hits.filter (fun h => h.included)).length := by
  constructor
  · simpa using countIncludedAux_eq (finalizeHits ps acc.1) 0
  · have h1 : (applySelection pol (finalize ps acc)).hits_included
        = countIncludedAux (finalizeHits ps acc.1) 0 := rfl
    rw [h1, countIncludedAux_eq]
    simp [applySelection, finalize, filter_included_map_dropped]

/-- C6: re-configuring a profile for a new target length changes only the
length-dependent special-state transition scores; every emission table, the
core transitions, the background and the model size are left unchanged, and
the result does not depend on the previously configured length. -/
theorem configure_isolation (p : Profile) (L1 L2 : Nat) (hne : L1 ≠ L2) :
    (configure (configure p L1) L2).matchEmissions = p.matchEmissions ∧
    (configure (configure p L1) L2).insertEmissions = p.insertEmissions ∧
    (configure (configure p L1) L2).tMM = p.tMM ∧
    (configure (configure p L1) L2).tII = p.tII ∧
    (configure (configure p L1) L2).background = p.background ∧
    (configure (configure p L1) L2).M = p.M ∧
    (configure (configure p L1) L2).special = lengthConfig L2 ∧
    (configure (configure p L1) L2).confLength = L2 ∧
    configure (configure p L1) L2 = configure p L2 :=
  ⟨rfl, rfl, rfl, rfl, rfl, rfl, rfl, rfl, rfl⟩

theorem configure_isolation_witness :
    (1 : Nat) ≠ 2 ∧
    (configure (configure sampleProfile 1) 2).matchEmissions = sampleProfile.matchEmissions :=
  ⟨by decide, (configure_isolation sampleProfile 1 2 (by decide)).1⟩

/-- C5: within one Top-Hits Collection evaluated under one set of calibrated
tail parameters with nonnegative effective database size and scale, a hit
with the strictly larger bit score has the smaller or equal E-value, where
the E-value is `Z * exp (-lam * (bits - mu))`. -/
theorem evalue_monotone (tp : TailParams) (th : TopHits) (h1 h2 : Hit)
    (m1 : h1 ∈ th.hits) (m2 : h2 ∈ th.hits)
    (hZ : 0 ≤ tp.Z) (hlam : 0 ≤ tp.lam)
    (hb : hitBits h2 < hitBits h1) :
    hitEvalue tp h1 ≤ hitEvalue tp h2 := by
  unfold hitEvalue evalue
  apply mul_le_mul_of_nonneg_left _ hZ
  apply Real.exp_le_exp.mpr
  have hsub : hitBits h2 - tp.mu ≤ hitBits h1 - tp.mu := by linarith
  have := mul_le_mul_of_nonneg_left hsub hlam
  linarith

theorem evalue_monotone_witness :
    hitW1 ∈ collW.hits ∧ hitW2 ∈ collW.hits ∧ (0 : ℝ) ≤ tailW.Z ∧ (0 : ℝ) ≤ tailW.lam ∧
    hitBits hitW2 < hitBits hitW1 ∧ hitEvalue tailW hitW1 ≤ hitEvalue tailW hitW2 := by
  have l2pos : (0 : ℝ) < Real.log 2 := Real.log_pos (by norm_num)
  have hb : hitBits hitW2 < hitBits hitW1 := by
    unfold hitBits hitW1 hitW2
    norm_num [Real.log_one]
  refine ⟨by simp [collW], by simp [collW], by norm_num [tailW], by norm_num [tailW], hb, ?_⟩
  exact evalue_monotone tailW collW hitW1 hitW2 (by simp [collW]) (by simp [collW])
    (by norm_num [tailW]) (by norm_num [tailW]) hb

lemma processTarget_of_failA (p : Profile) (ps : PipelineParams) (i : Nat) (t : DSeq)
    (hc : ssvScore (configure p t.residues.length) t.residues < ps.thrA) :
    processTarget p ps i t = .failedA := by
  simp [processTarget, hc]

lemma processTarget_not_failedA (p : Profile) (ps : PipelineParams) (i : Nat) (t : DSeq)
    (hc : ¬ ssvScore (configure p t.residues.length) t.residues < ps.thrA) :
    processTarget p ps i t ≠ .failedA := by
  simp only [processTarget, if_neg hc]
  split
  · simp
  · split <;> simp

lemma processTarget_hit_index (p : Profile) (ps : PipelineParams) (i : Nat) (t : DSeq)
    (h : Hit) (he : processTarget p ps i t = .hit h) : h.index = i := by
  simp only [processTarget] at he
  split at he
  · simp at he
  · split at he
    · simp at he
    · split at he
      · simp at he
      · injection he with h2
        rw [← h2]

lemma scanHits_mem (p : Profile) (ps : PipelineParams) :
    ∀ (ts : List DSeq) (i : Nat) (h : Hit), h ∈ scanHits p ps i ts →
      ∃ k t, ts[k]? = some t ∧ h.index = i + k ∧ processTarget p ps (i + k) t = .hit h := by
  intro ts
  induction ts with
  | nil => intro i h hm; simp [scanHits, scanAux] at hm
  | cons t ts ih =>
    intro i h hm
    simp only [scanHits, scanAux] at hm
    cases hout : processTarget p ps i t with
    | hit h0 =>
      rw [hout] at hm
      rcases List.mem_cons.mp hm with heq | hm2
      · exact ⟨0, t, by simp, by simpa using heq ▸ processTarget_hit_index p ps i t h0 hout,
          by simpa [heq] using hout⟩
      · rcases ih (i + 1) h hm2 with ⟨k, t2, hk, hidx, hpt⟩
        exact ⟨k + 1, t2, by simpa using hk, by omega,
          by have : i + 1 + k = i + (k + 1) := by omega
             rwa [this] at hpt⟩
    | failedA =>
      rw [hout] at hm
      rcases ih (i + 1) h hm with ⟨k, t2, hk, hidx, hpt⟩
      exact ⟨k + 1, t2, by simpa using hk, by omega,
        by have : i + 1 + k = i + (k + 1) := by omega
           rwa [this] at hpt⟩
    | failedB =>
      rw [hout] at hm
      rcases ih (i + 1) h hm with ⟨k, t2, hk, hidx, hpt⟩
      exact ⟨k + 1, t2, by simpa using hk, by omega,
        by have : i + 1 + k = i + (k + 1) := by omega
           rwa [this] at hpt⟩
    | failedC =>
      rw [hout] at hm
      rcases ih (i + 1) h hm with ⟨k, t2, hk, hidx, hpt⟩
      exact ⟨k + 1, t2, by simpa using hk, by omega,
        by have : i + 1 + k = i + (k + 1) := by omega
           rwa [this] at hpt⟩

lemma scanAux_failA_count (p : Profile) (ps : PipelineParams) :
    ∀ (ts : List DSeq) (i : Nat),
      (scanAux p ps i ts).2.failA
        = ts.countP fun t =>
            decide (ssvScore (configure p t.residues.length) t.residues < ps.thrA) := by
  intro ts
  induction ts with
  | nil => intro i; simp [scanAux]
  | cons t ts ih =>
    intro i
    simp only [scanAux, List.countP_cons]
    by_cases hc : ssvScore (configure p t.residues.length) t.residues < ps.thrA
    · rw [processTarget_of_failA p ps i t hc]
      simp [ih (i + 1), hc]
    · cases hout : processTarget p ps i t with
      | failedA => exact absurd hout (processTarget_not_failedA p ps i t hc)
      | failedB => simp [ih (i + 1), hc]
      | failedC => simp [ih (i + 1), hc]
      | hit h0 => simp [ih (i + 1), hc]

lemma foldl_max_self (a : ℚ) : ∀ (l : List ℚ), (∀ x ∈ l, x = a) → l.foldl max a = a := by
  intro l
  induction l with
  | nil => simp
  | cons x t ih =>
    intro hx
    rw [List.foldl_cons, hx x (by simp), max_self]
    exact ih fun y hy => hx y (by simp [hy])

lemma ssvScore_nil (p : Profile) : ssvScore p [] = minScore := by
  unfold ssvScore
  simp only [List.length_nil, List.range_zero, List.map_nil, List.nil_append]
  apply foldl_max_self
  intro x hx
  rcases List.mem_map.mp hx with ⟨k0, _, hk⟩
  rw [← hk]
  simp [diagFrom, runBest]

/-- C3: a target that fails Stage A of the filter cascade is discarded
immediately by the Scanning state — the per-target state machine stops at
`failedA`, no Hit of the run carries that target's index (so no Stage-B,
Stage-C, alignment or domain score of it is ever visible), and the Stage-A
fail counter counts exactly the Stage-A failures of the database, this
target among them. -/
theorem filter_short_circuit (p : Profile) (ps : PipelineParams) (ts : List DSeq)
    (j : Nat) (t : DSeq) (hj : ts[j]? = some t)
    (hfail : ssvScore (configure p t.residues.length) t.residues < ps.thrA) :
    processTarget p ps j t = .failedA ∧
    (∀ h ∈ scanHits p ps 0 ts, h.index ≠ j) ∧
    (scanCounters p ps ts).failA
      = (ts.countP fun u =>
          decide (ssvScore (configure p u.residues.length) u.residues < ps.thrA)) ∧
    0 < (scanCounters p ps ts).failA := by
  refine ⟨processTarget_of_failA p ps j t hfail, ?_, scanAux_failA_count p ps ts 0, ?_⟩
  · intro h hm hidx
    rcases scanHits_mem p ps ts 0 h hm with ⟨k, t2, hk, hik, hpt⟩
    have hkj : k = j := by omega
    rw [hkj] at hk hpt
    have ht2 : t2 = t := by
      rw [hj] at hk
      exact (Option.some.inj hk).symm
    rw [ht2] at hpt
    have h0j : 0 + j = j := by omega
    rw [h0j] at hpt
    rw [processTarget_of_failA p ps j t hfail] at hpt
    exact TargetOutcome.noConfusion hpt
  · rw [scanCounters, scanAux_failA_count p ps ts 0]
    refine List.countP_pos_iff.mpr ⟨t, ?_, by simpa using hfail⟩
    rcases List.getElem?_eq_some.mp hj with ⟨hlt, hget⟩
    exact hget ▸ List.getElem_mem hlt

theorem filter_short_circuit_witness :
    (sampleDB[0]? = some ⟨7, [0]⟩) ∧
    ssvScore (configure sampleProfile 1) [0] < strictParams.thrA ∧
    processTarget sampleProfile strictParams 0 ⟨7, [0]⟩ = .failedA := by
  have hval : ssvScore (configure sampleProfile 1) [0] = 2 := by
    norm_num [ssvScore, diagFrom, runBest, emitMass, sampleProfile, configure, minScore,
      List.range_succ, List.range_zero, List.range']
  have hfail : ssvScore (configure sampleProfile 1) [0] < strictParams.thrA := by
    rw [hval]; norm_num [strictParams]
  refine ⟨by decide, hfail, ?_⟩
  exact (filter_short_circuit sampleProfile strictParams sampleDB 0 ⟨7, [0]⟩ (by decide)
    (by simpa using hfail)).1

/-- C8: an empty (length-zero) target is rejected at Stage A with the defined
minimal score — its Stage-A score is exactly the minimal score, the
per-target state machine reports `failedA` at every index, no Hit of any run
carries such a target (so no E-value is ever computed for it), and the
Pipeline run over any database still returns a complete collection, never an
error, whenever the bound profile is well formed. -/
theorem empty_target_rejected (p : Profile) (ps : PipelineParams) (t : DSeq)
    (hempty : t.residues = []) (hthr : minScore < ps.thrA) :
    ssvScore (configure p t.residues.length) t.residues = minScore ∧
    (∀ j, processTarget p ps j t = .failedA) ∧
    (∀ ts j, ts[j]? = some t → ∀ h ∈ scanHits p ps 0 ts, h.index ≠ j) ∧
    (p.M ≠ 0 → ∀ ts, runPipeline p ps ts
      = .ok (finalize ps (scanAux p ps 0 ts))) := by
  have hs : ssvScore (configure p t.residues.length) t.residues = minScore := by
    rw [hempty]; exact ssvScore_nil _
  have hlt : ssvScore (configure p t.residues.length) t.residues < ps.thrA := by
    rw [hs]; exact hthr
  refine ⟨hs, fun j => processTarget_of_failA p ps j t hlt, ?_, ?_⟩
  · intro ts j hj h hm
    exact (filter_short_circuit p ps ts j t hj hlt).2.1 h hm
  · intro hM ts
    simp [runPipeline, hM]

theorem empty_target_rejected_witness :
    (⟨8, []⟩ : DSeq).residues = [] ∧ minScore < sampleParams.thrA ∧
    processTarget sampleProfile sampleParams 0 ⟨8, []⟩ = .failedA :=
  ⟨rfl, by decide,
    (empty_target_rejected sampleProfile sampleParams ⟨8, []⟩ rfl (by decide)).2.1 0⟩

lemma mergeTwo_tfrom (a b : Dom) : (mergeTwo a b).tfrom = min a.tfrom b.tfrom := rfl

lemma mergeTwo_tto (a b : Dom) : (mergeTwo a b).tto = max a.tto b.tto := rfl

lemma mergeLoop_head : ∀ (l : List Dom) (cur : Dom), (∀ d ∈ l, cur.tfrom ≤ d.tfrom) →
    ∃ c rest, mergeLoop cur l = c :: rest ∧ c.tfrom = cur.tfrom := by
  intro l
  induction l with
  | nil => intro cur _; exact ⟨cur, [], rfl, rfl⟩
  | cons d rest ih =>
    intro cur h
    by_cases hd : d.tfrom ≤ cur.tto
    · simp only [mergeLoop, if_pos hd]
      rcases ih (mergeTwo cur d) (fun e he => by
        rw [mergeTwo_tfrom, min_eq_left (h d (by simp))]
        exact h e (by simp [he])) with ⟨c, rest2, heq, hc⟩
      refine ⟨c, rest2, heq, ?_⟩
      rw [hc, mergeTwo_tfrom]
      exact min_eq_left (h d (by simp))
    · simp only [mergeLoop, if_neg hd]
      exact ⟨cur, mergeLoop d rest, rfl, rfl⟩

lemma mergeLoop_chain : ∀ (l : List Dom) (cur : Dom),
    cur.tfrom ≤ cur.tto → (∀ d ∈ l, d.tfrom ≤ d.tto) → (∀ d ∈ l, cur.tfrom ≤ d.tfrom) →
    l.Pairwise domLE →
    List.Chain' (fun a b => a.tto < b.tfrom) (mergeLoop cur l) ∧
    (∀ e ∈ mergeLoop cur l, cur.tfrom ≤ e.tfrom ∧ e.tfrom ≤ e.tto) := by
  intro l
  induction l with
  | nil =>
    intro cur hv _ _ _
    refine ⟨by simp [mergeLoop], ?_⟩
    intro e he
    have he2 : e = cur := by simpa [mergeLoop] using he
    rw [he2]
    exact ⟨le_refl _, hv⟩
  | cons d rest ih =>
    intro cur hv hvl hge hpw
    by_cases hd : d.tfrom ≤ cur.tto
    · simp only [mergeLoop, if_pos hd]
      have hcd : cur.tfrom ≤ d.tfrom := hge d (by simp)
      have hm_tfrom : (mergeTwo cur d).tfrom = cur.tfrom := by
        rw [mergeTwo_tfrom]; exact min_eq_left hcd
      have hmv : (mergeTwo cur d).tfrom ≤ (mergeTwo cur d).tto := by
        rw [hm_tfrom, mergeTwo_tto]; exact le_trans hv (le_max_left _ _)
      have h1 : ∀ e ∈ rest, (mergeTwo cur d).tfrom ≤ e.tfrom := by
        intro e he; rw [hm_tfrom]; exact hge e (by simp [he])
      have h2 : ∀ e ∈ rest, e.tfrom ≤ e.tto := fun e he => hvl e (by simp [he])
      rcases ih (mergeTwo cur d) hmv h2 h1 (List.pairwise_cons.mp hpw).2 with ⟨hc, hmem⟩
      refine ⟨hc, fun e he => ⟨?_, (hmem e he).2⟩⟩
      rw [← hm_tfrom]
      exact (hmem e he).1
    · simp only [mergeLoop, if_neg hd]
      have hlt : cur.tto < d.tfrom := Nat.lt_of_not_le hd
      have hdv : d.tfrom ≤ d.tto := hvl d (by simp)
      have h2 : ∀ e ∈ rest, e.tfrom ≤ e.tto := fun e he => hvl e (by simp [he])
      have h1 : ∀ e ∈ rest, d.tfrom ≤ e.tfrom := fun e he => (List.pairwise_cons.mp hpw).1 e he
      rcases ih d hdv h2 h1 (List.pairwise_cons.mp hpw).2 with ⟨hc, hmem⟩
      rcases mergeLoop_head rest d h1 with ⟨c, rest2, heq, hcf⟩
      constructor
      · rw [List.chain'_cons']
        refine ⟨?_, hc⟩
        intro y hy
        rw [heq] at hy
        have hy2 : c = y := by simpa using hy
        rw [← hy2, hcf]
        exact hlt
      · intro e he
        rcases List.mem_cons.mp he with rfl | he2
        · exact ⟨le_refl _, hv⟩
        · exact ⟨le_trans (hge d (by simp)) (hmem e he2).1, (hmem e he2).2⟩

lemma chain_tfrom_lt : ∀ (l : List Dom), List.Chain' (fun a b => a.tto < b.tfrom) l →
    (∀ e ∈ l, e.tfrom ≤ e.tto) → List.Chain' (fun a b => a.tfrom < b.tfrom) l := by
  intro l
  induction l with
  | nil => intro _ _; simp
  | cons a t ih =>
    intro hc hv
    rw [List.chain'_cons'] at hc ⊢
    refine ⟨?_, ih hc.2 (fun e he => hv e (by simp [he]))⟩
    intro y hy
    exact lt_of_le_of_lt (hv a (by simp)) (hc.1 y hy)

/-- C7: for every Hit produced by the Domain Postprocessor, the ordered list
of Domain records built by the merge step from valid candidate envelopes is
sorted by target start coordinate and consecutive domains do not overlap:
each domain's target end lies strictly before the next domain's target
start. -/
theorem domains_sorted_nonoverlap (cands : List Dom) (hv : ∀ d ∈ cands, d.tfrom ≤ d.tto) :
    List.Chain' (fun a b => a.tto < b.tfrom) (postprocessDomains cands) ∧
    List.Pairwise (fun a b => a.tfrom < b.tfrom) (postprocessDomains cands) := by
  unfold postprocessDomains
  cases hs : List.insertionSort domLE cands with
  | nil => simp
  | cons d rest =>
    have hall : ∀ e ∈ d :: rest, e.tfrom ≤ e.tto := by
      intro e he
      apply hv
      apply (List.perm_insertionSort domLE cands).subset
      rw [hs]
      exact he
    have hsorted : (d :: rest).Pairwise domLE := by
      rw [← hs]
      exact List.sorted_insertionSort domLE cands
    have h1 : ∀ e ∈ rest, d.tfrom ≤ e.tfrom :=
      fun e he => (List.pairwise_cons.mp hsorted).1 e he
    rcases mergeLoop_chain rest d (hall d (by simp)) (fun e he => hall e (by simp [he])) h1
      (List.pairwise_cons.mp hsorted).2 with ⟨hc, hmem⟩
    refine ⟨hc, ?_⟩
    haveI : IsTrans Dom (fun a b => a.tfrom < b.tfrom) := ⟨fun _ _ _ x y => Nat.lt_trans x y⟩
    rw [← List.chain'_iff_pairwise]
    exact chain_tfrom_lt (mergeLoop d rest) hc (fun e he => (hmem e he).2)

theorem domains_sorted_nonoverlap_witness :
    (∀ d ∈ [domW1, domW2], d.tfrom ≤ d.tto) ∧
    List.Chain' (fun a b => a.tto < b.tfrom) (postprocessDomains [domW1, domW2]) := by
  have hv : ∀ d ∈ [domW1, domW2], d.tfrom ≤ d.tto := by
    intro d hd
    rcases List.mem_cons.mp hd with rfl | hd2
    · decide
    · have : d = domW2 := by simpa using hd2
      rw [this]
      decide
  exact ⟨hv, (domains_sorted_nonoverlap [domW1, domW2] hv).1⟩

lemma scanHits_index_ge (p : Profile) (ps : PipelineParams) (ts : List DSeq) (i : Nat) :
    ∀ h ∈ scanHits p ps i ts, i ≤ h.index := by
  intro h hm
  rcases scanHits_mem p ps ts i h hm with ⟨k, t, _, hik, _⟩
  omega

lemma scanHits_index_pairwise (p : Profile) (ps : PipelineParams) :
    ∀ (ts : List DSeq) (i : Nat),
      (scanHits p ps i ts).Pairwise (fun a b => a.index < b.index) := by
  intro ts
  induction ts with
  | nil => intro i; simp [scanHits, scanAux]
  | cons t ts ih =>
    intro i
    simp only [scanHits, scanAux]
    cases hout : processTarget p ps i t with
    | hit h0 =>
      refine List.pairwise_cons.mpr ⟨?_, ih (i + 1)⟩
      intro b hb
      have hb2 : i + 1 ≤ b.index := scanHits_index_ge p ps ts (i + 1) b hb
      have h0i : h0.index = i := processTarget_hit_index p ps i t h0 hout
      omega
    | failedA => exact ih (i + 1)
    | failedB => exact ih (i + 1)
    | failedC => exact ih (i + 1)

lemma keys_nodup_of_index_pairwise (l : List Hit)
    (hp : l.Pairwise (fun a b => a.index < b.index)) : (l.map hitKey).Nodup := by
  have h2 : l.Pairwise (fun a b => hitKey a ≠ hitKey b) := by
    refine hp.imp ?_
    intro a b hlt hk
    have : ((-a.score, a.index) : ℚ × Nat) = (-b.score, b.index) := by
      have := hk
      simpa [hitKey, toLex] using this
    have hidx : a.index = b.index := congrArg Prod.snd this
    omega
  exact (List.pairwise_map).mpr h2

lemma eq_of_perm_of_sorted_nodupKey : ∀ (l1 l2 : List Hit), l1.Perm l2 →
    l1.Pairwise hitLE → l2.Pairwise hitLE → (l1.map hitKey).Nodup → l1 = l2 := by
  intro l1
  induction l1 with
  | nil => intro l2 hp _ _ _; exact hp.nil_eq
  | cons a t1 ih =>
    intro l2 hp hs1 hs2 hnd
    cases l2 with
    | nil =>
      have := hp.length_eq
      simp at this
    | cons b t2 =>
      by_cases hab : a = b
      · subst hab
        have htl : t1 = t2 := by
          apply ih t2 hp.cons_inv (List.pairwise_cons.mp hs1).2 (List.pairwise_cons.mp hs2).2
          exact (List.nodup_cons.mp (by simpa using hnd)).2
        rw [htl]
      · exfalso
        have hbmem : b ∈ a :: t1 := hp.mem_iff.mpr (by simp)
        have hamem : a ∈ b :: t2 := hp.mem_iff.mp (by simp)
        have hbt1 : b ∈ t1 := by
          rcases List.mem_cons.mp hbmem with h | h
          · exact absurd h.symm hab
          · exact h
        have hat2 : a ∈ t2 := by
          rcases List.mem_cons.mp hamem with h | h
          · exact absurd h hab
          · exact h
        have h1 : hitLE a b := (List.pairwise_cons.mp hs1).1 b hbt1
        have h2 : hitLE b a := (List.pairwise_cons.mp hs2).1 a hat2
        have hkeq : hitKey a = hitKey b := le_antisymm h1 h2
        have hin : hitKey b ∈ t1.map hitKey := List.mem_map_of_mem _ hbt1
        rw [← hkeq] at hin
        exact (List.nodup_cons.mp (by simpa using hnd)).1 hin

lemma map_hitKey_applyThresholds (ps : PipelineParams) (l : List Hit) :
    (l.map (applyThresholds ps)).map hitKey = l.map hitKey := by
  rw [List.map_map]
  exact List.map_congr_left fun x _ => rfl

/-- C4: the finalized Top-Hits Collection is deterministic — finalizing the
hits accumulated in any worker completion order (any permutation of the
Scanning output, the same or a different one on a rerun) yields the identical
hit list with identical flags, and that list is sorted by descending
full-sequence score with ties broken by ascending target insertion index. -/
theorem topHits_order_deterministic (p : Profile) (ps : PipelineParams) (ts : List DSeq)
    (l1 l2 : List Hit)
    (h1 : l1.Perm (scanHits p ps 0 ts)) (h2 : l2.Perm (scanHits p ps 0 ts)) :
    finalizeHits ps l1 = finalizeHits ps l2 ∧
    (finalizeHits ps l1).Pairwise
      (fun a b => b.score < a.score ∨ (a.score = b.score ∧ a.index < b.index)) := by
  have key_nodup : ((scanHits p ps 0 ts).map hitKey).Nodup :=
    keys_nodup_of_index_pairwise _ (scanHits_index_pairwise p ps ts 0)
  have hkperm : ((finalizeHits ps l1).map hitKey).Perm ((scanHits p ps 0 ts).map hitKey) := by
    have p1 : ((finalizeHits ps l1).map hitKey).Perm ((l1.map (applyThresholds ps)).map hitKey) :=
      (List.perm_insertionSort hitLE _).map hitKey
    rw [map_hitKey_applyThresholds] at p1
    exact p1.trans (h1.map hitKey)
  have nd1 : ((finalizeHits ps l1).map hitKey).Nodup := hkperm.nodup_iff.mpr key_nodup
  have sorted1 : (finalizeHits ps l1).Pairwise hitLE := List.sorted_insertionSort hitLE _
  have sorted2 : (finalizeHits ps l2).Pairwise hitLE := List.sorted_insertionSort hitLE _
  have hpp : (finalizeHits ps l1).Perm (finalizeHits ps l2) := by
    have q1 : (finalizeHits ps l1).Perm (l1.map (applyThresholds ps)) :=
      List.perm_insertionSort hitLE _
    have q2 : (finalizeHits ps l2).Perm (l2.map (applyThresholds ps)) :=
      List.perm_insertionSort hitLE _
    exact q1.trans (((h1.map _).trans ((h2.map _).symm)).trans q2.symm)
  refine ⟨eq_of_perm_of_sorted_nodupKey _ _ hpp sorted1 sorted2 nd1, ?_⟩
  have hneq : (finalizeHits ps l1).Pairwise (fun a b => hitKey a ≠ hitKey b) :=
    (List.pairwise_map).mp nd1
  refine (sorted1.and hneq).imp ?_
  intro a b hab
  have hlt : hitKey a < hitKey b := lt_of_le_of_ne hab.1 hab.2
  rcases (Prod.Lex.lt_iff _ _).mp hlt with hlt1 | ⟨heq, hlt2⟩
  · exact Or.inl (by simpa using neg_lt_neg_iff.mp hlt1)
  · exact Or.inr ⟨neg_inj.mp heq, hlt2⟩

theorem topHits_order_deterministic_witness :
    ((scanHits sampleProfile sampleParams 0 sampleDB2).Perm
      (scanHits sampleProfile sampleParams 0 sampleDB2)) ∧
    ((scanHits sampleProfile sampleParams 0 sampleDB2).reverse.Perm
      (scanHits sampleProfile sampleParams 0 sampleDB2)) ∧
    finalizeHits sampleParams (scanHits sampleProfile sampleParams 0 sampleDB2)
      = finalizeHits sampleParams ((scanHits sampleProfile sampleParams 0 sampleDB2).reverse) :=
  ⟨List.Perm.refl _, List.reverse_perm _,
    (topHits_order_deterministic sampleProfile sampleParams sampleDB2 _ _
      (List.Perm.refl _) (List.reverse_perm _)).1⟩

lemma runRound_ok (cfg : DriverConfig) (prof : Profile) (n : Nat)
    (prevSet : Option (Finset Nat)) (res : IterationResult)
    (h : runRound cfg prof n prevSet = .ok res) :
    res.iteration = n ∧
    (prevSet = none → res.converged = false) ∧
    (∀ s, prevSet = some s → res.converged = decide (identSet res.hits = s)) ∧
    ∃ th0, runPipeline prof cfg.params cfg.targets = .ok th0 ∧
      res.hits = applySelection cfg.policy th0 := by
  unfold runRound at h
  split at h
  · exact absurd h (by simp)
  · rename_i th0 hp
    injection h with h2
    subst h2
    refine ⟨rfl, ?_, ?_, th0, hp, rfl⟩
    · intro hps
      subst hps
      rfl
    · intro s hps
      subst hps
      rfl

lemma driverLoop_spec (cfg : DriverConfig) : ∀ (fuel : Nat) (prof : Profile) (n : Nat)
    (prevSet : Option (Finset Nat)) (acc : List IterationResult),
    prevSet = acc.head?.map (fun r => identSet r.hits) →
    n = acc.length →
    (∀ r ∈ acc, r.converged = false) →
    acc.reverse.map (fun r => r.iteration) = List.range acc.length →
    List.Chain' (fun r r2 => r2.converged = decide (identSet r2.hits = identSet r.hits))
      acc.reverse →
    (∃ s2, (driverLoop cfg fuel prof n prevSet acc).results = acc.reverse ++ s2) ∧
    List.Chain' (fun r r2 => r2.converged = decide (identSet r2.hits = identSet r.hits))
      (driverLoop cfg fuel prof n prevSet acc).results ∧
    (∀ r ∈ (driverLoop cfg fuel prof n prevSet acc).results.dropLast, r.converged = false) ∧
    ((driverLoop cfg fuel prof n prevSet acc).results.map (fun r => r.iteration)
      = List.range (driverLoop cfg fuel prof n prevSet acc).results.length) ∧
    (∀ rs, driverLoop cfg fuel prof n prevSet acc = .success rs →
      ∃ rl, rs.getLast? = some rl ∧ rl.converged = true) ∧
    (∀ e rs, driverLoop cfg fuel prof n prevSet acc = .failure e rs →
      ∀ r ∈ rs, r.converged = false) ∧
    (acc = [] → ∀ r, (driverLoop cfg fuel prof n prevSet acc).results.head? = some r →
      r.converged = false) := by
  intro fuel
  induction fuel with
  | zero =>
    intro prof n prevSet acc hprev hn hfalse hiter hchain
    refine ⟨⟨[], by simp [driverLoop, DriverOutcome.results]⟩, ?_, ?_, ?_, ?_, ?_, ?_⟩
    · simpa [driverLoop, DriverOutcome.results] using hchain
    · intro r hr
      simp only [driverLoop, DriverOutcome.results] at hr
      exact hfalse r (List.mem_reverse.mp ((List.dropLast_sublist _).subset hr))
    · simpa [driverLoop, DriverOutcome.results] using hiter
    · intro rs h; simp [driverLoop] at h
    · intro e rs h
      simp only [driverLoop, DriverOutcome.failure.injEq] at h
      intro r hr
      exact hfalse r (List.mem_reverse.mp (h.2 ▸ hr))
    · intro hacc r hr
      rw [hacc] at hr
      simp [driverLoop, DriverOutcome.results] at hr
  | succ fuel ih =>
    intro prof n prevSet acc hprev hn hfalse hiter hchain
    cases hr : runRound cfg prof n prevSet with
    | error e =>
      have hd : driverLoop cfg (fuel + 1) prof n prevSet acc
          = .failure (.pipelineError e) acc.reverse := by
        simp [driverLoop, hr]
      rw [hd]
      refine ⟨⟨[], by simp [DriverOutcome.results]⟩, ?_, ?_, ?_, ?_, ?_, ?_⟩
      · simpa [DriverOutcome.results] using hchain
      · intro r hr2
        simp only [DriverOutcome.results] at hr2
        exact hfalse r (List.mem_reverse.mp ((List.dropLast_sublist _).subset hr2))
      · simpa [DriverOutcome.results] using hiter
      · intro rs h; simp at h
      · intro e2 rs h
        simp only [DriverOutcome.failure.injEq] at h
        intro r hr2
        exact hfalse r (List.mem_reverse.mp (h.2 ▸ hr2))
      · intro hacc r hr2
        rw [hacc] at hr2
        simp [DriverOutcome.results] at hr2
    | ok res =>
      obtain ⟨hit_n, hconv_none, hconv_some, th0, hpip, hhits⟩ :=
        runRound_ok cfg prof n prevSet res hr
      have hlink : ∀ rp ∈ acc.head?, res.converged
          = decide (identSet res.hits = identSet rp.hits) := by
        intro rp hrp
        refine hconv_some (identSet rp.hits) ?_
        rw [hprev, Option.mem_def.mp hrp]
        rfl
      have hchain2 : List.Chain'
          (fun r r2 => r2.converged = decide (identSet r2.hits = identSet r.hits))
          ((res :: acc).reverse) := by
        rw [List.reverse_cons, List.chain'_append]
        refine ⟨hchain, List.chain'_singleton _, ?_⟩
        intro x hx y hy
        rw [List.getLast?_reverse] at hx
        have hy2 : res = y := by simpa using hy
        rw [← hy2]
        exact hlink x hx
      have hiter2 : ((res :: acc).reverse).map (fun r => r.iteration)
          = List.range (res :: acc).length := by
        rw [List.reverse_cons, List.map_append, hiter]
        simp [hit_n, hn, List.range_succ]
      by_cases hcv : res.converged = true
      · have hd : driverLoop cfg (fuel + 1) prof n prevSet acc
            = .success ((res :: acc).reverse) := by
          simp [driverLoop, hr, hcv]
        rw [hd]
        refine ⟨⟨[res], by simp [DriverOutcome.results, List.reverse_cons]⟩, ?_, ?_, ?_, ?_, ?_, ?_⟩
        · simpa [DriverOutcome.results] using hchain2
        · intro r hr2
          simp only [DriverOutcome.results, List.reverse_cons, List.dropLast_concat] at hr2
          exact hfalse r (List.mem_reverse.mp hr2)
        · simpa [DriverOutcome.results] using hiter2
        · intro rs h
          injection h with h2
          rw [← h2, List.reverse_cons, List.getLast?_concat]
          exact ⟨res, rfl, hcv⟩
        · intro e2 rs h; simp at h
        · intro hacc r hr2
          have hpn : prevSet = none := by rw [hprev, hacc]; rfl
          rw [hconv_none hpn] at hcv
          simp at hcv
      · rw [Bool.not_eq_true] at hcv
        cases hb : cfg.buildFromHits (builderInput res.hits) with
        | error e2 =>
          have hd : driverLoop cfg (fuel + 1) prof n prevSet acc
              = .failure e2 ((res :: acc).reverse) := by
            simp [driverLoop, hr, hcv, hb]
          rw [hd]
          refine ⟨⟨[res], by simp [DriverOutcome.results, List.reverse_cons]⟩, ?_, ?_, ?_, ?_, ?_, ?_⟩
          · simpa [DriverOutcome.results] using hchain2
          · intro r hr2
            simp only [DriverOutcome.results, List.reverse_cons, List.dropLast_concat] at hr2
            exact hfalse r (List.mem_reverse.mp hr2)
          · simpa [DriverOutcome.results] using hiter2
          · intro rs h; simp at h
          · intro e3 rs h
            simp only [DriverOutcome.failure.injEq] at h
            intro r hr2
            rw [← h.2] at hr2
            rw [List.reverse_cons] at hr2
            rcases List.mem_append.mp hr2 with h4 | h4
            · exact hfalse r (List.mem_reverse.mp h4)
            · have : r = res := by simpa using h4
              rw [this]
              exact hcv
          · intro hacc r hr2
            rw [hacc] at hr2
            simp only [DriverOutcome.results, List.reverse_cons, List.reverse_nil,
              List.nil_append, List.head?_cons, Option.some.injEq] at hr2
            rw [← hr2]
            exact hcv
        | ok prof2 =>
          have hd : driverLoop cfg (fuel + 1) prof n prevSet acc
              = driverLoop cfg fuel prof2 (n + 1) (some (identSet res.hits)) (res :: acc) := by
            simp [driverLoop, hr, hcv, hb]
          rw [hd]
          have hfalse2 : ∀ r ∈ res :: acc, r.converged = false := by
            intro r hr2
            rcases List.mem_cons.mp hr2 with rfl | h4
            · exact hcv
            · exact hfalse r h4
          obtain ⟨⟨s2, hsuf⟩, hch, hdl, hit2, hsucc, hfail, hhead⟩ :=
            ih prof2 (n + 1) (some (identSet res.hits)) (res :: acc) (by simp)
              (by simp [hn]) hfalse2 hiter2 hchain2
          refine ⟨⟨res :: s2, ?_⟩, hch, hdl, hit2, hsucc, hfail, ?_⟩
          · rw [hsuf, List.reverse_cons, List.append_assoc]
            rfl
          · intro hacc r hh
            subst hacc
            rw [hsuf] at hh
            simp only [List.reverse_cons, List.reverse_nil, List.nil_append,
              List.cons_append, List.head?_cons, Option.some.injEq] at hh
            rw [← hh]
            exact hcv

/-- C1: for every iterative search, the first reported round is never
converged, every round after the first is reported converged exactly when
the order-independent set of target identities marked included and not
dropped equals that set of the previous round, and every round before the
last reported one is not converged — so convergence is reported at the first
fixpoint and never earlier. -/
theorem driver_convergence_fixpoint (cfg : DriverConfig) :
    (∀ r, (runDriver cfg).results.head? = some r → r.converged = false) ∧
    List.Chain' (fun r r2 => (r2.converged = true ↔ identSet r2.hits = identSet r.hits))
      (runDriver cfg).results ∧
    (∀ r ∈ (runDriver cfg).results.dropLast, r.converged = false) := by
  unfold runDriver
  cases hb : cfg.buildFromQuery with
  | error e =>
    refine ⟨?_, ?_, ?_⟩ <;> simp [DriverOutcome.results]
  | ok prof0 =>
    obtain ⟨_, hch, hdl, _, _, _, hhead⟩ := driverLoop_spec cfg cfg.maxIter prof0 0 none []
      (by simp) (by simp) (by simp) (by simp) (by simp)
    refine ⟨hhead rfl, ?_, hdl⟩
    refine hch.imp ?_
    intro a b h
    rw [h]
    simp

theorem driver_convergence_fixpoint_witness :
    (∀ r, (runDriver sampleCfg2).results.head? = some r → r.converged = false) ∧
    List.Chain' (fun r r2 => (r2.converged = true ↔ identSet r2.hits = identSet r.hits))
      (runDriver sampleCfg2).results ∧
    (∀ r ∈ (runDriver sampleCfg2).results.dropLast, r.converged = false) :=
  driver_convergence_fixpoint sampleCfg2

/-- C2: if the selection policy sets dropped on every hit bearing a given
target identity, then after the selection window of a round every hit with
that identity is still visible in the round's Iteration Result with its
dropped flag set, the identity is absent from the Profile-building input
handed to the Builder for the next round, and the identity is excluded from
the convergence accounting set. -/
theorem selection_policy_effect (cfg : DriverConfig) (prof : Profile) (n : Nat)
    (prevSet : Option (Finset Nat)) (d : Nat) (res : IterationResult)
    (hpol : ∀ h : Hit, h.ident = d → cfg.policy h = true)
    (hrun : runRound cfg prof n prevSet = .ok res) :
    (∃ th0, runPipeline prof cfg.params cfg.targets = .ok th0 ∧
      res.hits.hits = th0.hits.map (fun h => { h with dropped := cfg.policy h }) ∧
      ∀ h0 ∈ th0.hits, h0.ident = d → { h0 with dropped := true } ∈ res.hits.hits) ∧
    (∀ h ∈ res.hits.hits, h.ident = d → h.dropped = true) ∧
    (∀ h ∈ builderInput res.hits, h.ident ≠ d) ∧
    d ∉ identSet res.hits := by
  obtain ⟨_, _, _, th0, hpip, hhits⟩ := runRound_ok cfg prof n prevSet res hrun
  have happear : ∃ th1, runPipeline prof cfg.params cfg.targets = .ok th1 ∧
      res.hits.hits = th1.hits.map (fun h => { h with dropped := cfg.policy h }) ∧
      ∀ h0 ∈ th1.hits, h0.ident = d → { h0 with dropped := true } ∈ res.hits.hits := by
    refine ⟨th0, hpip, by rw [hhits]; rfl, ?_⟩
    intro h0 hm hid
    have hp : cfg.policy h0 = true := hpol h0 hid
    have hel : ({ h0 with dropped := true } : Hit) = { h0 with dropped := cfg.policy h0 } := by
      rw [hp]
    rw [hhits, hel]
    exact List.mem_map_of_mem _ hm
  have hdrop : ∀ h ∈ res.hits.hits, h.ident = d → h.dropped = true := by
    intro h hm hid
    rw [hhits] at hm
    rcases List.mem_map.mp hm with ⟨h0, hm0, heq⟩
    rw [← heq]
    show cfg.policy h0 = true
    apply hpol
    have hident : h0.ident = h.ident := by rw [← heq]
    rw [hident, hid]
  have habs : ∀ h ∈ builderInput res.hits, h.ident ≠ d := by
    intro h hm hid
    have hmm := List.mem_filter.mp hm
    have hdr := hdrop h hmm.1 hid
    have hflag := hmm.2
    rw [hdr] at hflag
    simp at hflag
  refine ⟨happear, hdrop, habs, ?_⟩
  intro hd2
  unfold identSet at hd2
  rcases List.mem_map.mp (List.mem_toFinset.mp hd2) with ⟨h, hm, hid⟩
  exact habs h hm hid

theorem selection_policy_effect_witness :
    (∀ h : Hit, h.ident = 7 → sampleCfg.policy h = true) ∧
    runRound sampleCfg sampleProfile 0 none = .ok sampleRes ∧
    (∃ h ∈ sampleRes.hits.hits, h.ident = 7 ∧ h.dropped = true) ∧
    (∀ h ∈ sampleRes.hits.hits, h.ident = 7 → h.dropped = true) ∧
    (∀ h ∈ builderInput sampleRes.hits, h.ident ≠ 7) ∧
    7 ∉ identSet sampleRes.hits := by
  have hrun : runRound sampleCfg sampleProfile 0 none = .ok sampleRes := rfl
  have main := selection_policy_effect sampleCfg sampleProfile 0 none 7 sampleRes
    (fun h _ => rfl) hrun
  have hA : processTarget sampleProfile sampleParams 0 ⟨7, [0]⟩ = .hit sampleHit := by
    norm_num [processTarget, configure, ssvScore, diagFrom, runBest, emitMass, vitScore,
      gappedBest, vitStep, biasMass, fwdScore, fwdStep, minScore, sampleProfile, sampleParams,
      lengthConfig, candidateDomains, postprocessDomains, runsAux, posMass, mergeLoop, domLE,
      sampleHit, List.range_succ, List.range_zero, List.range']
  have hScan : scanAux sampleProfile sampleParams 0 sampleDB = ([sampleHit], ⟨0, 0, 0, 1⟩) := by
    simp [sampleDB, scanAux, hA]
  have hlist : sampleRes.hits.hits
      = [{ applyThresholds sampleParams sampleHit with dropped := true }] := by
    simp [sampleRes, applySelection, finalize, finalizeHits, sortHits, hScan, dropAllPolicy]
  have hex : ∃ h ∈ sampleRes.hits.hits, h.ident = 7 ∧ h.dropped = true := by
    rw [hlist]
    exact ⟨{ applyThresholds sampleParams sampleHit with dropped := true }, by simp, rfl, rfl⟩
  exact ⟨fun h _ => rfl, hrun, hex, main.2.1, main.2.2.1, main.2.2.2⟩

lemma scanAux_account (p : Profile) (ps : PipelineParams) :
    ∀ (ts : List DSeq) (i : Nat),
      (scanAux p ps i ts).2.failA + (scanAux p ps i ts).2.failB + (scanAux p ps i ts).2.failC
        + (scanAux p ps i ts).1.length = ts.length := by
  intro ts
  induction ts with
  | nil => intro i; simp [scanAux]
  | cons t ts ih =>
    intro i
    have h := ih (i + 1)
    simp only [scanAux, List.length_cons]
    cases processTarget p ps i t <;> simp <;> omega

/-- C9: the caller of the Pipeline receives either a complete Top-Hits
Collection — every target of the database is accounted for, either by one of
the three per-stage fail counters or by a Hit, never silently lost — or a
typed failure; and the caller of the Iterative Search Driver receives either
a sequence of Iteration Results whose last round is converged, or a typed
failure carrying all prior rounds' results, numbered consecutively from
round zero and none of them converged. -/
theorem complete_or_typed_failure (p : Profile) (ps : PipelineParams) (ts : List DSeq)
    (cfg : DriverConfig) :
    (∀ th, runPipeline p ps ts = .ok th →
      th.counters.failA + th.counters.failB + th.counters.failC + th.hits.length
        = ts.length) ∧
    (∀ rs, runDriver cfg = .success rs →
      rs ≠ [] ∧ ∃ rl, rs.getLast? = some rl ∧ rl.converged = true) ∧
    (∀ e rs, runDriver cfg = .failure e rs →
      rs.map (fun r => r.iteration) = List.range rs.length ∧
      ∀ r ∈ rs, r.converged = false) := by
  refine ⟨?_, ?_, ?_⟩
  · intro th hth
    unfold runPipeline at hth
    split at hth
    · exact absurd hth (by simp)
    · injection hth with h2
      rw [← h2]
      have hlen : (finalize ps (scanAux p ps 0 ts)).hits.length = (scanAux p ps 0 ts).1.length := by
        show (finalizeHits ps (scanAux p ps 0 ts).1).length = _
        unfold finalizeHits sortHits
        rw [(List.perm_insertionSort hitLE _).length_eq, List.length_map]
      rw [hlen]
      exact scanAux_account p ps ts 0
  · intro rs hrs
    unfold runDriver at hrs
    cases hb : cfg.buildFromQuery with
    | error e => rw [hb] at hrs; simp at hrs
    | ok prof0 =>
      rw [hb] at hrs
      obtain ⟨_, _, _, _, hsucc, _, _⟩ := driverLoop_spec cfg cfg.maxIter prof0 0 none []
        (by simp) (by simp) (by simp) (by simp) (by simp)
      obtain ⟨rl, hlast, hconv⟩ := hsucc rs hrs
      refine ⟨?_, rl, hlast, hconv⟩
      intro hnil
      rw [hnil] at hlast
      simp at hlast
  · intro e rs hrs
    unfold runDriver at hrs
    cases hb : cfg.buildFromQuery with
    | error e2 =>
      rw [hb] at hrs
      injection hrs with h1 h2
      rw [← h2]
      exact ⟨by simp, by simp⟩
    | ok prof0 =>
      rw [hb] at hrs
      obtain ⟨_, _, _, hiter, _, hfail, _⟩ := driverLoop_spec cfg cfg.maxIter prof0 0 none []
        (by simp) (by simp) (by simp) (by simp) (by simp)
      have hrs2 : driverLoop cfg cfg.maxIter prof0 0 none [] = .failure e rs := hrs
      refine ⟨?_, hfail e rs hrs2⟩
      have hres : (driverLoop cfg cfg.maxIter prof0 0 none []).results = rs := by
        rw [hrs2]
        rfl
      rw [← hres]
      exact hiter

theorem complete_or_typed_failure_witness :
    runPipeline sampleProfile sampleParams [] = .ok (finalize sampleParams ([], ⟨0, 0, 0, 0⟩)) ∧
    (finalize sampleParams ([], ⟨0, 0, 0, 0⟩)).counters.failA
      + (finalize sampleParams ([], ⟨0, 0, 0, 0⟩)).counters.failB
      + (finalize sampleParams ([], ⟨0, 0, 0, 0⟩)).counters.failC
      + (finalize sampleParams ([], ⟨0, 0, 0, 0⟩)).hits.length = ([] : List DSeq).length := by
  have hok : runPipeline sampleProfile sampleParams [] =
      .ok (finalize sampleParams ([], ⟨0, 0, 0, 0⟩)) := rfl
  exact ⟨hok,
    (complete_or_typed_failure sampleProfile sampleParams [] sampleCfg2).1 _ hok⟩
